import Mathlib

/-!
Shallow embedding of the feature lifecycle orchestrator
(`lib/ApplicationFeatures/ApplicationServer.cpp`) and of the log-level view
(`arangod/Views/LoggerView.cpp`).

Conventions of the embedding:
* `std::unordered_map<std::string, ApplicationFeature*> _features` is modelled
  as a `List Feature` in the map's (fixed, deterministic) iteration order;
  key lookup is `find?` on the `name` field.
* a `fail(...)` call (LOG(FATAL) + FATAL_ERROR_EXIT) and a thrown
  `TRI_ERROR_INTERNAL` exception are both modelled as `Except.error msg`.
* the in-place mutation of a feature's `_enabled` flag is modelled by
  rebuilding the registry list with `List.set`.
-/

/-- Abstract feature record.  `ApplicationFeature` itself is declared in
`ApplicationFeatures/ApplicationFeature.h`, which is not part of the
repository snapshot; the fields below are the attributes the orchestrator
code reads (`name()`, `isEnabled()`, `startsAfter()`, `requires()`,
`enableWith()`, `requiresElevatedPrivileges()`), as the spec's data model
lists them. -/
structure Feature where
  name : String
  enabled : Bool
  forceDisabled : Bool
  startsAfter : List String
  requiresFeatures : List String
  enableWith : String
  requiresElevatedPrivileges : Bool
deriving DecidableEq, Repr

/-- Modelled from the spec: `ApplicationFeature::setEnabled` lives in the
missing `ApplicationFeature` sources.  Per the spec's design notes the
source's `setEnabled` is a plain assignment that does **not** consult the
`forceDisabled` flag ("a feature that has been force-disabled but whose
enable-with target is enabled would, in the source, have its `enabled`
toggled on via `setEnabled`"). -/
def Feature.setEnabled (f : Feature) (value : Bool) : Feature :=
  ⟨f.name, value, f.forceDisabled, f.startsAfter, f.requiresFeatures,
   f.enableWith, f.requiresElevatedPrivileges⟩

/-- Orchestrator state: the fields of `ApplicationServer` that the modelled
member functions read or write (`_features`, `_orderedFeatures`, `_stopping`,
`_privilegesDropped`). -/
structure ServerState where
  features : List Feature
  orderedFeatures : List Feature
  stopping : Bool
  privilegesDropped : Bool
deriving DecidableEq, Repr

/-- `ApplicationServer::exists`: membership test on the registry keys. -/
def featureExists (features : List Feature) (name : String) : Bool :=
  features.any (fun f => f.name = name)

/-- `_features.find(name)` / static `ApplicationServer::lookupFeature`:
lookup that reports absence instead of throwing. -/
def lookupFeature (features : List Feature) (name : String) : Option Feature :=
  features.find? (fun f => f.name = name)

/-- `ApplicationServer::feature`: lookup that fails (throws
`TRI_ERROR_INTERNAL`) on an unknown name. -/
def getFeature (features : List Feature) (name : String) : Except String Feature :=
  match lookupFeature features name with
  | none => .error ("unknown feature " ++ name)
  | some f => .ok f

/-- `ApplicationServer::addFeature`: `_features.emplace(feature->name(), feature)`.
`emplace` on a map inserts nothing when the key is already present, so a
duplicate name silently keeps the previously registered feature. -/
def addFeature (features : List Feature) (f : Feature) : List Feature :=
  if featureExists features f.name then features else features ++ [f]

/-- The process-wide singleton pointer `ApplicationServer::server`, modelled
as an optional instance identifier.  The constructor logs
"ApplicationServer initialized twice" (at ERR severity, which does not
abort) when the pointer is already set, and then overwrites it
unconditionally.  The `Except` result records that no fatal path exists:
the constructor never returns `.error`.  The returned `Bool` is `true` when
the error was logged. -/
def applicationServerCtor (globalServer : Option Nat) (newServer : Nat) :
    Except String (Option Nat × Bool) :=
  .ok (some newServer, globalServer.isSome)

/-- `ApplicationServer::raisePrivilegesTemporarily`: throws once the
permanent drop happened, otherwise a stub (no state change). -/
def raisePrivilegesTemporarily (s : ServerState) : Except String ServerState :=
  if s.privilegesDropped then
    .error "must not raise privileges after dropping them"
  else
    .ok s

/-- `ApplicationServer::dropPrivilegesTemporarily`: throws once the
permanent drop happened, otherwise a stub (no state change). -/
def dropPrivilegesTemporarily (s : ServerState) : Except String ServerState :=
  if s.privilegesDropped then
    .error "must not try to drop privileges after dropping them"
  else
    .ok s

/-- `ApplicationServer::dropPrivilegesPermanently`: throws once the
permanent drop happened, otherwise sets the sticky flag. -/
def dropPrivilegesPermanently (s : ServerState) : Except String ServerState :=
  if s.privilegesDropped then
    .error "must not try to drop privileges after dropping them"
  else
    .ok ⟨s.features, s.orderedFeatures, s.stopping, true⟩

/-- `ApplicationServer::beginShutdown`: walks `_orderedFeatures` in reverse,
invokes `beginShutdown` on each enabled feature (the returned list of names
is that invocation trace), then raises `_stopping`. -/
def beginShutdown (s : ServerState) : ServerState × List String :=
  (⟨s.features, s.orderedFeatures, true, s.privilegesDropped⟩,
   (s.orderedFeatures.reverse.filter (fun f => f.enabled)).map (fun f => f.name))

/-- Privilege-controller transitions observed during `prepare`. -/
inductive PrivCall where
  | raiseTemp : PrivCall
  | dropTemp : PrivCall
deriving DecidableEq, Repr

/-- `ApplicationServer::prepare`: walks the ordered list with a local
`privilegesElevated` flag (initially `true`); whenever an enabled feature's
`requiresElevatedPrivileges()` differs from the flag it performs the
corresponding temporary privilege transition and updates the flag, then
invokes the feature's `prepare` callback (a no-op by default; the feature
implementations are outside the core).  The result records the privilege
controller call trace. -/
def prepareLoop (features : List Feature) (privilegesElevated : Bool)
    (s : ServerState) : Except String (ServerState × List PrivCall) :=
  match features with
  | [] => .ok (s, [])
  | f :: rest =>
    if f.enabled then
      if f.requiresElevatedPrivileges = privilegesElevated then
        prepareLoop rest privilegesElevated s
      else if f.requiresElevatedPrivileges then
        match raisePrivilegesTemporarily s with
        | .error e => .error e
        | .ok s' =>
          match prepareLoop rest true s' with
          | .error e => .error e
          | .ok (s'', trace) => .ok (s'', .raiseTemp :: trace)
      else
        match dropPrivilegesTemporarily s with
        | .error e => .error e
        | .ok s' =>
          match prepareLoop rest false s' with
          | .error e => .error e
          | .ok (s'', trace) => .ok (s'', .dropTemp :: trace)
    else
      prepareLoop rest privilegesElevated s

/-- `ApplicationServer::prepare` entry point: starts elevated. -/
def prepare (s : ServerState) : Except String (ServerState × List PrivCall) :=
  prepareLoop s.orderedFeatures true s

/-! LoggerView (`arangod/Views/LoggerView.cpp`). -/

/-- Log levels named by `LoggerView.cpp` (the full `LogLevel` enum lives in
`Logger/Logger.h`, outside the snapshot; only these five values are used
here). -/
inductive LogLevel where
  | ERR : LogLevel
  | WARN : LogLevel
  | INFO : LogLevel
  | DEBUG : LogLevel
  | TRACE : LogLevel
deriving DecidableEq, Repr

/-- `LevelStringToEnum`: the four recognized names; everything else maps to
`TRACE`. -/
def LevelStringToEnum (level : String) : LogLevel :=
  if level = "ERR" then .ERR
  else if level = "WARN" then .WARN
  else if level = "INFO" then .INFO
  else if level = "DEBUG" then .DEBUG
  else .TRACE

/-- The `"level"` attribute of the input slice, as `updateProperties`
observes it: `slice.get("level")` yields a none-slice when the attribute is
absent, and `isString()` distinguishes string payloads. -/
inductive LevelAttr where
  | missing : LevelAttr
  | nonString : LevelAttr
  | str : String → LevelAttr
deriving DecidableEq, Repr

/-- Error codes surfaced by the modelled LoggerView code. -/
inductive ErrorCode where
  | TRI_ERROR_BAD_PARAMETER : ErrorCode
deriving DecidableEq, Repr

/-- `LoggerView::updateProperties`: rejects a missing or non-string
`"level"` with `TRI_ERROR_BAD_PARAMETER`, keeping the stored level;
otherwise stores `LevelStringToEnum` of the string.  Result is
(optional error, new stored `_level`). -/
def updateProperties (levelAttr : LevelAttr) (level : LogLevel) :
    Option (ErrorCode × String) × LogLevel :=
  match levelAttr with
  | .str s => (none, LevelStringToEnum s)
  | _ => (some (.TRI_ERROR_BAD_PARAMETER, "expecting <level> to be specified as string"),
          level)

/-! `ApplicationServer::enableAutomaticFeatures`.

The C++ loop repeatedly sweeps the whole registry; a sweep visits every
feature in registry iteration order, and for a feature with a non-empty
`enableWith()` it fails fatally when the target is unknown, and otherwise
assigns the target's current `isEnabled()` to the feature (via
`setEnabled`) whenever the two differ, recording that something changed.
The outer do-while repeats sweeps until one reports no change.

A sweep is modelled as `sweepGo` over the list of registry indices
`List.range n` (structural recursion so that concrete runs compute), and
the unbounded do-while as a fuel-indexed loop whose `diverged` result marks
fuel exhaustion. -/

/-- One `enableAutomaticFeatures` sweep over the registry indices in `idxs`,
threading the registry state and the `changed` flag. -/
def sweepGo : List Nat → List Feature → Bool → Except String (List Feature × Bool)
  | [], fs, changed => .ok (fs, changed)
  | i :: rest, fs, changed =>
    match fs.get? i with
    | none => sweepGo rest fs changed
    | some f =>
      if f.enableWith = "" then
        sweepGo rest fs changed
      else
        match lookupFeature fs f.enableWith with
        | none =>
          .error ("feature " ++ f.name ++ " depends on unknown feature " ++ f.enableWith)
        | some t =>
          if t.enabled = f.enabled then
            sweepGo rest fs changed
          else
            sweepGo rest (fs.set i (f.setEnabled t.enabled)) true

/-- Result of the fuel-indexed do-while loop: fixpoint reached, fatal
`fail(...)`, or fuel exhausted (the C++ loop would still be running). -/
inductive LoopResult where
  | ok : List Feature → LoopResult
  | fatal : String → LoopResult
  | diverged : LoopResult
deriving DecidableEq, Repr

/-- The do-while of `ApplicationServer::enableAutomaticFeatures`, with fuel
bounding the number of sweeps. -/
def enableAutomaticFeatures : Nat → List Feature → LoopResult
  | 0, _ => .diverged
  | fuel + 1, fs =>
    match sweepGo (List.range fs.length) fs false with
    | .error e => .fatal e
    | .ok (fs', true) => enableAutomaticFeatures fuel fs'
    | .ok (fs', false) => .ok fs'

/-! `ApplicationServer::setupDependencies`. -/

/-- Modelled from the spec: `ApplicationFeature::doesStartBefore` is declared
in the missing `ApplicationFeature` sources.  The spec's linearization
honors `starts-after` ("for every F in the list and every G ∈ F.starts-after
with G present in the list, G appears before F", and its scenario
`A.starts-after={B}, C.starts-after={A}` yields `[B, A, C]`), which pins the
reading: feature `f` starts before feature `g` exactly when `g` declares it
must start after `f`, i.e. when `f.name ∈ g.startsAfter`. -/
def doesStartBefore (f g : Feature) : Bool :=
  g.startsAfter.contains f.name

/-- One insertion step of the `setupDependencies` linearization: the C++
walks the already-placed vector from the tail toward the head and remembers
the leftmost position whose element `f` must start before, then inserts `f`
there (appending when no such element exists).  Inserting before the
leftmost such element is the same as inserting before the first element
(scanning head to tail) that satisfies `doesStartBefore f`, which is what
this structural recursion does. -/
def insertFeature (f : Feature) : List Feature → List Feature
  | [] => [f]
  | g :: rest =>
    if doesStartBefore f g then f :: g :: rest
    else g :: insertFeature f rest

/-- The full linearization pass: insert every registry feature (enabled or
not) in registry iteration order. -/
def orderFeatures (regs : List Feature) : List Feature :=
  regs.foldl (fun placed f => insertFeature f placed) []

/-- Inner loop of the `failOnMissing` check: walk one enabled feature's
`requires()` list, failing on an unknown or disabled dependency. -/
def checkOneRequires (regs : List Feature) (f : Feature) : List String → Option String
  | [] => none
  | r :: rest =>
    match lookupFeature regs r with
    | none =>
      some ("feature " ++ f.name ++ " depends on unknown feature " ++ r)
    | some g =>
      if g.enabled then checkOneRequires regs f rest
      else
        some ("enabled feature " ++ f.name ++ " depends on other feature " ++ r ++
              ", which is disabled")

/-- The `failOnMissing` check over the registry (`apply` with
`enabledOnly = true`): only enabled features have their `requires()`
validated. -/
def checkRequiresAll (regs : List Feature) : List Feature → Option String
  | [] => none
  | f :: rest =>
    if f.enabled then
      match checkOneRequires regs f f.requiresFeatures with
      | some e => some e
      | none => checkRequiresAll regs rest
    else checkRequiresAll regs rest

/-- `ApplicationServer::setupDependencies`: optional missing/disabled
`requires` validation (a `fail(...)`, modelled as `.error`), then the
linearization of all features, then removal of the disabled ones.  There is
no cycle detection anywhere in this function. -/
def setupDependencies (failOnMissing : Bool) (regs : List Feature) :
    Except String (List Feature) :=
  match (if failOnMissing then checkRequiresAll regs regs else none) with
  | some e => .error e
  | none => .ok ((orderFeatures regs).filter (fun f => f.enabled))

/-! Specification-side predicates about the declared `starts-after`
constraints. -/

/-- The declared `starts-after` constraints are acyclic: some rank function
strictly decreases from a feature to every feature it starts after. -/
def StartsAfterAcyclic (regs : List Feature) : Prop :=
  ∃ rank : String → Nat, ∀ f ∈ regs, ∀ g ∈ f.startsAfter, rank g < rank f.name

/-- The declared `starts-after` constraints are transitively closed over the
registry: when `a` starts after `b` and `b` starts after `c`, `a` also
declares `c` directly. -/
@[reducible]
def ClosedSA (regs : List Feature) : Prop :=
  ∀ a ∈ regs, ∀ b ∈ regs, b.name ∈ a.startsAfter → ∀ c ∈ b.startsAfter, c ∈ a.startsAfter

/-! Concrete registries used by counterexamples and witnesses. -/

/-- C1 counterexample registry member: starts after `cxZ`. -/
def cxX : Feature := ⟨"X", true, false, ["Z"], [], "", false⟩

/-- C1 counterexample registry member: no constraints. -/
def cxY : Feature := ⟨"Y", true, false, [], [], "", false⟩

/-- C1 counterexample registry member: starts after `cxY`. -/
def cxZ : Feature := ⟨"Z", true, false, ["Y"], [], "", false⟩

/-- C1 counterexample registry, in registry iteration order. -/
def cxRegs : List Feature := [cxX, cxY, cxZ]

/-- A rank witnessing that `cxRegs`' constraints are acyclic
(`Y` before `Z` before `X`). -/
def cxRank : String → Nat :=
  fun n => if n = "Y" then 0 else if n = "Z" then 1 else 2

/-- The ordered list `setupDependencies` produces for `cxRegs`. -/
def cxOrdered : List Feature := [cxZ, cxX, cxY]

/-- Witness registry member for the amended C1 theorem. -/
def cwA : Feature := ⟨"A", true, false, [], [], "", false⟩

/-- Witness registry member: starts after `cwA`. -/
def cwB : Feature := ⟨"B", true, false, ["A"], [], "", false⟩

/-- Witness registry member: starts after both (transitively closed). -/
def cwC : Feature := ⟨"C", true, false, ["A", "B"], [], "", false⟩

/-- Transitively closed, acyclic witness registry. -/
def cwRegs : List Feature := [cwA, cwB, cwC]

/-- A rank witnessing that `cwRegs`' constraints are acyclic. -/
def cwRank : String → Nat :=
  fun n => if n = "A" then 0 else if n = "B" then 1 else 2

/-- C2/C8 witness: an enabled root feature. -/
def ceT : Feature := ⟨"T", true, false, [], [], "", false⟩

/-- C2 counterexample: a force-disabled feature mirroring `ceT`. -/
def ceF : Feature := ⟨"F", false, true, [], [], "T", false⟩

/-- C4 counterexample registry member: starts after `cdB`. -/
def cdA : Feature := ⟨"A", true, false, ["B"], [], "", false⟩

/-- C4 counterexample registry member: starts after `cdA` (a cycle). -/
def cdB : Feature := ⟨"B", true, false, ["A"], [], "", false⟩

/-- C8 counterexample: enable-with cycle member mirroring `cyB`. -/
def cyA : Feature := ⟨"A", true, false, [], [], "B", false⟩

/-- C8 counterexample: enable-with cycle member mirroring `cyC`. -/
def cyB : Feature := ⟨"B", false, false, [], [], "C", false⟩

/-- C8 counterexample: enable-with cycle member mirroring `cyA`. -/
def cyC : Feature := ⟨"C", true, false, [], [], "A", false⟩

/-- C8 counterexample registry: the oscillation's even state. -/
def cycleReg0 : List Feature := [cyA, cyB, cyC]

/-- C8 counterexample: the oscillation's odd state, one sweep later. -/
def cycleReg1 : List Feature :=
  [cyA.setEnabled false, cyB.setEnabled true, cyC.setEnabled false]

/-- C5 witness feature: does not require elevated privileges. -/
def pwS : Feature := ⟨"S", true, false, [], [], "", false⟩

/-- C5 witness feature: requires elevated privileges. -/
def pwR : Feature := ⟨"R", true, false, [], [], "", true⟩

/-- C5 witness feature: does not require elevated privileges. -/
def pwT : Feature := ⟨"Tw", true, false, [], [], "", false⟩

/-- C5/C9 witness server state. -/
def pwState : ServerState := ⟨[], [pwS, pwR, pwT], false, false⟩

/-- C7 counterexample: the feature registered first. -/
def c7old : Feature := ⟨"A", true, false, [], [], "", false⟩

/-- C7 counterexample: a different feature with the same name. -/
def c7new : Feature := ⟨"A", false, true, ["B"], ["C"], "", true⟩

/-! Index-level view of the registry, used to reason about the
`enableAutomaticFeatures` sweeps. -/

/-- Position of the first registry entry with the given name: the index of
the entry `lookupFeature` returns. -/
def lookupIdx : List Feature → String → Option Nat
  | [], _ => none
  | f :: rest, nm =>
    if f.name = nm then some 0 else (lookupIdx rest nm).map (· + 1)

/-- The name stored at registry index `j` (`""` when out of range). -/
def nameAt (fs : List Feature) (j : Nat) : String :=
  ((fs.get? j).map (fun f => f.name)).getD ""

/-- The enabled flag stored at registry index `j` (`false` when out of
range). -/
def enabledAt (fs : List Feature) (j : Nat) : Bool :=
  ((fs.get? j).map (fun f => f.enabled)).getD false

/-- Index of the enable-with target of the entry at index `j`, when it has
one. -/
def tgtIdx (fs : List Feature) (j : Nat) : Option Nat :=
  match fs.get? j with
  | none => none
  | some f => if f.enableWith = "" then none else lookupIdx fs f.enableWith

/-- The enabled flag reached by chasing enable-with links `fuel` times from
index `j`. -/
def chaseVal (fs : List Feature) : Nat → Nat → Bool
  | 0, j => enabledAt fs j
  | fuel + 1, j =>
    match tgtIdx fs j with
    | none => enabledAt fs j
    | some k => chaseVal fs fuel k

/-- The name/enable-with skeleton of a feature: the part of a registry
entry a sweep of `enableAutomaticFeatures` never modifies. -/
def skel (f : Feature) : String × String := (f.name, f.enableWith)

/-- Every non-empty enable-with reference resolves to some registered
feature. -/
def EnableWithResolvable (regs : List Feature) : Prop :=
  ∀ f ∈ regs, f.enableWith ≠ "" → ∃ t ∈ regs, t.name = f.enableWith

/-- The enable-with references are acyclic: some rank function strictly
decreases from a feature to every feature carrying the name of its
enable-with target. -/
def EnableWithAcyclic (regs : List Feature) : Prop :=
  ∃ rank : String → Nat, ∀ f ∈ regs, f.enableWith ≠ "" →
    ∀ t ∈ regs, t.name = f.enableWith → rank t.name < rank f.name

/-! Theorems. -/

/-- C3: once `_privilegesDropped` is set, `raisePrivilegesTemporarily`,
`dropPrivilegesTemporarily` and `dropPrivilegesPermanently` all fail with the
fatal internal error and produce no new state; moreover the temporary
transitions never change the state at all and a successful permanent drop
leaves the flag set, so the flag never reverts to `false`. -/
theorem privileges_dropped_is_sticky (s : ServerState) (h : s.privilegesDropped = true) :
    raisePrivilegesTemporarily s = .error "must not raise privileges after dropping them" ∧
    dropPrivilegesTemporarily s = .error "must not try to drop privileges after dropping them" ∧
    dropPrivilegesPermanently s = .error "must not try to drop privileges after dropping them" ∧
    (∀ t u : ServerState, raisePrivilegesTemporarily t = .ok u → u = t) ∧
    (∀ t u : ServerState, dropPrivilegesTemporarily t = .ok u → u = t) ∧
    (∀ t u : ServerState, dropPrivilegesPermanently t = .ok u → u.privilegesDropped = true) := by
  refine ⟨?_, ?_, ?_, ?_, ?_, ?_⟩
  · simp [raisePrivilegesTemporarily, h]
  · simp [dropPrivilegesTemporarily, h]
  · simp [dropPrivilegesPermanently, h]
  · intro t u hu
    by_cases hd : t.privilegesDropped <;> simp [raisePrivilegesTemporarily, hd] at hu
    exact hu.symm
  · intro t u hu
    by_cases hd : t.privilegesDropped <;> simp [dropPrivilegesTemporarily, hd] at hu
    exact hu.symm
  · intro t u hu
    by_cases hd : t.privilegesDropped <;> simp [dropPrivilegesPermanently, hd] at hu
    rw [← hu]

/-- Witness for C3 at a concrete dropped state. -/
theorem privileges_dropped_is_sticky_witness :
    raisePrivilegesTemporarily ⟨[], [], false, true⟩ =
      .error "must not raise privileges after dropping them" ∧
    dropPrivilegesTemporarily ⟨[], [], false, true⟩ =
      .error "must not try to drop privileges after dropping them" ∧
    dropPrivilegesPermanently ⟨[], [], false, true⟩ =
      .error "must not try to drop privileges after dropping them" :=
  have h := privileges_dropped_is_sticky ⟨[], [], false, true⟩ rfl
  ⟨h.1, h.2.1, h.2.2.1⟩

/-- C5: during `prepare`, for an ordered list `[S, R, T]` of enabled features
where only `R` requires elevated privileges, the privilege-controller call
sequence is exactly drop, raise, drop (the local flag starts `true`, and a
transition fires exactly when the feature's requirement differs from it). -/
theorem prepare_privilege_sequence (S R T : Feature) (s : ServerState)
    (hS : S.enabled = true) (hR : R.enabled = true) (hT : T.enabled = true)
    (hs : S.requiresElevatedPrivileges = false)
    (hr : R.requiresElevatedPrivileges = true)
    (ht : T.requiresElevatedPrivileges = false)
    (hdrop : s.privilegesDropped = false) :
    prepareLoop [S, R, T] true s = .ok (s, [.dropTemp, .raiseTemp, .dropTemp]) := by
  simp [prepareLoop, raisePrivilegesTemporarily, dropPrivilegesTemporarily,
        hS, hR, hT, hs, hr, ht, hdrop]

/-- Witness for C5 at concrete features and state. -/
theorem prepare_privilege_sequence_witness :
    prepareLoop [pwS, pwR, pwT] true pwState =
      .ok (pwState, [.dropTemp, .raiseTemp, .dropTemp]) :=
  prepare_privilege_sequence pwS pwR pwT pwState rfl rfl rfl rfl rfl rfl rfl

/-- C6 counterexample: constructing a second orchestrator while one is live
(global pointer `some 0`) does not abort: the constructor returns normally
(`.ok`, never `.error`), merely records that the "initialized twice" error
was logged (`true`), and replaces the global handle with the new instance. -/
theorem applicationServerCtor_second_instance :
    applicationServerCtor (some 0) 1 = .ok (some 1, true) := rfl

/-- C6 amended: constructing an orchestrator never aborts; the global handle
is unconditionally overwritten with the new instance, and the
"initialized twice" diagnostic is logged exactly when a previous instance
was live. -/
theorem applicationServerCtor_never_fatal (globalServer : Option Nat) (n : Nat) :
    applicationServerCtor globalServer n = .ok (some n, globalServer.isSome) := rfl

/-- C7 counterexample: registering a feature whose name `"A"` is already
taken is not an error: `emplace` silently keeps the old feature (the
registry is unchanged; the distinct new feature is discarded). -/
theorem addFeature_duplicate_silent :
    addFeature [c7old] c7new = [c7old] ∧ c7new ≠ c7old := by decide

/-- C7 amended: `addFeature` never rejects anything: on a duplicate name it
silently keeps the previously registered feature and discards the new one,
and otherwise it appends the feature to the registry. -/
theorem addFeature_emplace (fs : List Feature) (f : Feature) :
    (featureExists fs f.name = true → addFeature fs f = fs) ∧
    (featureExists fs f.name = false → addFeature fs f = fs ++ [f]) := by
  constructor <;> intro h <;> simp [addFeature, h]

/-- Witness for C7 amended: inserting into an empty registry appends. -/
theorem addFeature_emplace_witness : addFeature [] c7new = [] ++ [c7new] :=
  (addFeature_emplace [] c7new).2 rfl

/-- C9: `beginShutdown` is idempotent on the orchestrator state: a second
call produces exactly the same state and the same callback trace; the
stopping flag is set, the callbacks run in reverse order of the ordered
list, and every enabled feature of the ordered list is visited at least
once. -/
theorem beginShutdown_idempotent (s : ServerState) :
    beginShutdown (beginShutdown s).1 = beginShutdown s ∧
    (beginShutdown s).1.stopping = true ∧
    (beginShutdown s).2 =
      ((s.orderedFeatures.filter (fun f => f.enabled)).map (fun f => f.name)).reverse ∧
    ∀ f ∈ s.orderedFeatures, f.enabled = true → f.name ∈ (beginShutdown s).2 := by
  refine ⟨rfl, rfl, ?_, ?_⟩
  · simp [beginShutdown]
  · intro f hf he
    simp only [beginShutdown, List.mem_map]
    exact ⟨f, by simp [List.mem_filter, List.mem_reverse, hf, he], rfl⟩

/-- Witness for C9 at a concrete state with a three-feature ordered list. -/
theorem beginShutdown_idempotent_witness :
    beginShutdown (beginShutdown pwState).1 = beginShutdown pwState ∧
    (beginShutdown pwState).1.stopping = true :=
  have h := beginShutdown_idempotent pwState
  ⟨h.1, h.2.1⟩

/-- C10: `LoggerView::updateProperties` fails with
`TRI_ERROR_BAD_PARAMETER` exactly when the `"level"` attribute is absent or
not a string, leaving the stored level unchanged; on a string it succeeds
and stores `LevelStringToEnum` of it, which maps every unrecognized string
to `TRACE`. -/
theorem updateProperties_level_contract (lvl : LogLevel) (s : String) :
    updateProperties .missing lvl =
      (some (.TRI_ERROR_BAD_PARAMETER, "expecting <level> to be specified as string"), lvl) ∧
    updateProperties .nonString lvl =
      (some (.TRI_ERROR_BAD_PARAMETER, "expecting <level> to be specified as string"), lvl) ∧
    updateProperties (.str s) lvl = (none, LevelStringToEnum s) ∧
    (s ≠ "ERR" → s ≠ "WARN" → s ≠ "INFO" → s ≠ "DEBUG" →
      LevelStringToEnum s = .TRACE) := by
  refine ⟨rfl, rfl, rfl, ?_⟩
  intro h1 h2 h3 h4
  simp [LevelStringToEnum, h1, h2, h3, h4]

/-- Witness for C10: an unrecognized string is accepted and stored as
`TRACE`; a missing attribute is rejected and the stored level kept. -/
theorem updateProperties_level_contract_witness :
    updateProperties (.str "bogus") .INFO = (none, .TRACE) ∧
    updateProperties .missing .INFO =
      (some (.TRI_ERROR_BAD_PARAMETER, "expecting <level> to be specified as string"),
       .INFO) :=
  have h := updateProperties_level_contract .INFO "bogus"
  ⟨h.2.2.1.trans (by rw [h.2.2.2 (by decide) (by decide) (by decide) (by decide)]),
   h.1⟩

/-- C2 counterexample: `enableAutomaticFeatures` converges on the registry
`[ceT, ceF]` in which `ceF` is force-disabled with enable-with target
`ceT`, and ends with `ceF` enabled: the source's `setEnabled` overrides the
force-disabled flag instead of keeping the feature disabled. -/
theorem enableAutomaticFeatures_overrides_forceDisabled :
    enableAutomaticFeatures 3 [ceT, ceF] = .ok [ceT, ceF.setEnabled true] ∧
    ceF.forceDisabled = true ∧
    (ceF.setEnabled true).forceDisabled = true ∧
    (ceF.setEnabled true).enabled = true := by decide

/-- C4 counterexample: on the two-element `starts-after` cycle
`cdA ↔ cdB`, `setupDependencies` with `failOnMissing = true` raises no
fatal diagnostic at all: it returns an ordered list. -/
theorem setupDependencies_accepts_cycle :
    "B" ∈ cdA.startsAfter ∧ "A" ∈ cdB.startsAfter ∧
    setupDependencies true [cdA, cdB] = .ok [cdB, cdA] :=
  ⟨by decide, by decide, rfl⟩

/-- The `changed` flag of a sweep is monotone: once set it stays set. -/
theorem sweepGo_changed_mono (idxs : List Nat) :
    ∀ (fs : List Feature) (p : List Feature × Bool),
      sweepGo idxs fs true = .ok p → p.2 = true := by
  induction idxs with
  | nil =>
    intro fs p h
    simp only [sweepGo] at h
    injection h with h
    rw [← h]
  | cons i rest ih =>
    intro fs p h
    simp only [sweepGo] at h
    split at h
    · exact ih _ _ h
    · split at h
      · exact ih _ _ h
      · split at h
        · simp at h
        · split at h
          · exact ih _ _ h
          · exact ih _ _ h

/-- A sweep that reports no change leaves the registry untouched, and every
index it visited holds a feature whose enable-with target (when any) exists
and already matches. -/
theorem sweepGo_false_fix (idxs : List Nat) :
    ∀ (fs fs' : List Feature), sweepGo idxs fs false = .ok (fs', false) →
      fs' = fs ∧
      ∀ i ∈ idxs, ∀ f, fs.get? i = some f → f.enableWith ≠ "" →
        ∃ t, lookupFeature fs f.enableWith = some t ∧ t.enabled = f.enabled := by
  induction idxs with
  | nil =>
    intro fs fs' h
    simp only [sweepGo] at h
    injection h with h
    injection h with h1 h2
    exact ⟨h1.symm, fun j hj => absurd hj (List.not_mem_nil j)⟩
  | cons i rest ih =>
    intro fs fs' h
    simp only [sweepGo] at h
    split at h
    next hg =>
      obtain ⟨h1, h2⟩ := ih _ _ h
      refine ⟨h1, ?_⟩
      intro j hj f hf hew
      rcases List.mem_cons.mp hj with rfl | hj
      · rw [hg] at hf; cases hf
      · exact h2 j hj f hf hew
    next f hg =>
      split at h
      next he =>
        obtain ⟨h1, h2⟩ := ih _ _ h
        refine ⟨h1, ?_⟩
        intro j hj f' hf' hew
        rcases List.mem_cons.mp hj with rfl | hj
        · rw [hg] at hf'
          injection hf' with hf'
          exact absurd (hf' ▸ he) hew
        · exact h2 j hj f' hf' hew
      next he =>
        split at h
        next hl => simp at h
        next t hl =>
          split at h
          next ht =>
            obtain ⟨h1, h2⟩ := ih _ _ h
            refine ⟨h1, ?_⟩
            intro j hj f' hf' hew
            rcases List.mem_cons.mp hj with rfl | hj
            · rw [hg] at hf'
              injection hf' with hf'
              exact hf' ▸ ⟨t, hl, ht⟩
            · exact h2 j hj f' hf' hew
          next ht =>
            have := sweepGo_changed_mono rest _ _ h
            simp at this

/-- C2 amended: whenever `enableAutomaticFeatures` converges (some sweep
reports no change), every feature with a non-empty enable-with target has
`enabled` equal to the target's `enabled` — with no force-disabled
exception, since the source's `setEnabled` is a plain assignment. -/
theorem enableAutomaticFeatures_mirrors_enableWith (fuel : Nat) :
    ∀ (fs out : List Feature), enableAutomaticFeatures fuel fs = .ok out →
    ∀ f ∈ out, f.enableWith ≠ "" →
    ∃ t, lookupFeature out f.enableWith = some t ∧ f.enabled = t.enabled := by
  induction fuel with
  | zero => intro fs out h; cases h
  | succ n ih =>
    intro fs out h
    simp only [enableAutomaticFeatures] at h
    cases hs : sweepGo (List.range fs.length) fs false with
    | error e => rw [hs] at h; cases h
    | ok p =>
      obtain ⟨fs', c⟩ := p
      rw [hs] at h
      cases c with
      | true => exact ih fs' out h
      | false =>
        injection h with h
        subst h
        obtain ⟨heq, hprop⟩ := sweepGo_false_fix _ _ _ hs
        rw [heq]
        intro f hf hew
        obtain ⟨i, hi⟩ := List.get?_of_mem hf
        have hlt : i < fs.length := by
          by_contra hge
          rw [List.get?_eq_none.mpr (le_of_not_lt hge)] at hi
          cases hi
        obtain ⟨t, hl, ht⟩ := hprop i (List.mem_range.mpr hlt) f hi hew
        exact ⟨t, hl, ht.symm⟩

/-- Witness for C2 amended: on the converged registry `[ceT, ceF.setEnabled
true]` the mirroring holds. -/
theorem enableAutomaticFeatures_mirrors_enableWith_witness :
    ∃ t, lookupFeature [ceT, ceF.setEnabled true] (ceF.setEnabled true).enableWith
           = some t ∧
         (ceF.setEnabled true).enabled = t.enabled :=
  enableAutomaticFeatures_mirrors_enableWith 3 [ceT, ceF] [ceT, ceF.setEnabled true]
    (by decide) (ceF.setEnabled true) (by decide) (by decide)

/-- One sweep maps the even oscillation state to the odd one and back, each
time reporting a change, so `enableAutomaticFeatures` exhausts any fuel on
the three-feature enable-with cycle. -/
theorem eaf_cycle_diverges (fuel : Nat) :
    enableAutomaticFeatures fuel cycleReg0 = .diverged ∧
    enableAutomaticFeatures fuel cycleReg1 = .diverged := by
  induction fuel with
  | zero => exact ⟨rfl, rfl⟩
  | succ n ih =>
    have h0 : sweepGo (List.range cycleReg0.length) cycleReg0 false =
        .ok (cycleReg1, true) := rfl
    have h1 : sweepGo (List.range cycleReg1.length) cycleReg1 false =
        .ok (cycleReg0, true) := rfl
    constructor
    · simp only [enableAutomaticFeatures, h0]
      exact ih.2
    · simp only [enableAutomaticFeatures, h1]
      exact ih.1

/-- C8 counterexample: on the finite registry `cycleReg0` (a three-feature
enable-with cycle with alternating enabled flags) the fixed-point loop of
`enableAutomaticFeatures` never reaches a sweep with no change: no amount
of fuel makes it converge. -/
theorem enableAutomaticFeatures_cycle_diverges :
    ¬ ∃ fuel out, enableAutomaticFeatures fuel cycleReg0 = .ok out := by
  rintro ⟨fuel, out, h⟩
  rw [(eaf_cycle_diverges fuel).1] at h
  cases h

/-- A `requires` scan over one feature's list finds nothing to report when
every required name resolves to an enabled feature. -/
theorem checkOneRequires_none (regs : List Feature) (f : Feature) :
    ∀ rs : List String,
      (∀ r ∈ rs, ∃ g ∈ regs, lookupFeature regs r = some g ∧ g.enabled = true) →
      checkOneRequires regs f rs = none := by
  intro rs
  induction rs with
  | nil => intro _; rfl
  | cons r rest ih =>
    intro h
    obtain ⟨g, _, hg, he⟩ := h r (by simp)
    simp only [checkOneRequires, hg, he, if_true]
    exact ih (fun r' hr' => h r' (by simp [hr']))

/-- The registry-wide `requires` check reports nothing when no enabled
feature has anything to report. -/
theorem checkRequiresAll_none (regs : List Feature) :
    ∀ todo : List Feature,
      (∀ f ∈ todo, f.enabled = true →
        checkOneRequires regs f f.requiresFeatures = none) →
      checkRequiresAll regs todo = none := by
  intro todo
  induction todo with
  | nil => intro _; rfl
  | cons f rest ih =>
    intro h
    by_cases hf : f.enabled
    · simp only [checkRequiresAll, hf, if_true, h f (by simp) hf]
      exact ih (fun g hg => h g (by simp [hg]))
    · simp only [checkRequiresAll, hf, if_false]
      exact ih (fun g hg => h g (by simp [hg]))

/-- C4 amended: `setupDependencies` contains no cycle detection: whenever
the `failOnMissing` check passes (every enabled feature's `requires` names
resolve to enabled features), it returns an ordered list — regardless of
any cycles in the declared `starts-after` constraints. -/
theorem setupDependencies_never_detects_cycles (regs : List Feature)
    (h : ∀ f ∈ regs, f.enabled = true → ∀ r ∈ f.requiresFeatures,
         ∃ g ∈ regs, lookupFeature regs r = some g ∧ g.enabled = true) :
    ∃ l, setupDependencies true regs = .ok l := by
  have hnone : checkRequiresAll regs regs = none :=
    checkRequiresAll_none regs regs
      (fun f hf hen => checkOneRequires_none regs f _ (h f hf hen))
  exact ⟨(orderFeatures regs).filter (fun f => f.enabled),
         by simp [setupDependencies, hnone]⟩

/-- Witness for C4 amended, at the cyclic registry itself. -/
theorem setupDependencies_never_detects_cycles_witness :
    ∃ l, setupDependencies true [cdA, cdB] = .ok l :=
  setupDependencies_never_detects_cycles [cdA, cdB] (by decide)

/-- Membership in an insertion: the inserted feature plus the old members. -/
theorem mem_insertFeature (f x : Feature) :
    ∀ l : List Feature, x ∈ insertFeature f l ↔ x = f ∨ x ∈ l := by
  intro l
  induction l with
  | nil => simp [insertFeature]
  | cons g rest ih =>
    by_cases hd : doesStartBefore f g
    · simp [insertFeature, hd]
    · simp only [insertFeature, hd, if_neg, Bool.false_eq_true, if_false,
        List.mem_cons, ih]
      tauto

/-- `doesStartBefore` read as membership. -/
theorem doesStartBefore_iff (f g : Feature) :
    doesStartBefore f g = true ↔ f.name ∈ g.startsAfter := by
  simp [doesStartBefore]

/-- Inserting a feature preserves the pairwise ordering invariant ("no later
element is declared to start before an earlier one"), provided the declared
constraints are transitively closed and irreflexive over the ambient
registry. -/
theorem pairwise_insertFeature (regs : List Feature)
    (hclosed : ClosedSA regs) (hirr : ∀ a ∈ regs, a.name ∉ a.startsAfter)
    (f : Feature) (hf : f ∈ regs) :
    ∀ l : List Feature, (∀ x ∈ l, x ∈ regs) →
      l.Pairwise (fun a b => b.name ∉ a.startsAfter) →
      (insertFeature f l).Pairwise (fun a b => b.name ∉ a.startsAfter) := by
  intro l
  induction l with
  | nil => intro _ _; simp [insertFeature]
  | cons g rest ih =>
    intro hsub hp
    rw [List.pairwise_cons] at hp
    obtain ⟨hg, hrest⟩ := hp
    by_cases hd : doesStartBefore f g
    · have hfg : f.name ∈ g.startsAfter := (doesStartBefore_iff f g).mp hd
      have hgmem : g ∈ regs := hsub g (by simp)
      simp only [insertFeature, hd, if_true]
      rw [List.pairwise_cons]
      constructor
      · intro b hb
        rcases List.mem_cons.mp hb with rfl | hb
        · intro hgf
          exact hirr b hgmem (hclosed b hgmem f hf hfg b.name hgf)
        · intro hbf
          exact hg b hb (hclosed g hgmem f hf hfg b.name hbf)
      · exact List.pairwise_cons.mpr ⟨hg, hrest⟩
    · have hfg : f.name ∉ g.startsAfter := fun hm =>
        hd ((doesStartBefore_iff f g).mpr hm)
      simp only [insertFeature, hd, Bool.false_eq_true, if_false]
      rw [List.pairwise_cons]
      constructor
      · intro b hb
        rcases (mem_insertFeature f b rest).mp hb with rfl | hb
        · exact hfg
        · exact hg b hb
      · exact ih (fun x hx => hsub x (by simp [hx])) hrest

/-- The whole linearization fold keeps the pairwise ordering invariant and
only ever holds registry members. -/
theorem orderFeatures_pairwise (regs : List Feature)
    (hclosed : ClosedSA regs) (hirr : ∀ a ∈ regs, a.name ∉ a.startsAfter) :
    ∀ todo acc : List Feature, (∀ x ∈ todo, x ∈ regs) → (∀ x ∈ acc, x ∈ regs) →
      acc.Pairwise (fun a b => b.name ∉ a.startsAfter) →
      (todo.foldl (fun placed f => insertFeature f placed) acc).Pairwise
        (fun a b => b.name ∉ a.startsAfter) ∧
      ∀ x ∈ todo.foldl (fun placed f => insertFeature f placed) acc, x ∈ regs := by
  intro todo
  induction todo with
  | nil => intro acc _ hacc hp; exact ⟨hp, hacc⟩
  | cons f rest ih =>
    intro acc htodo hacc hp
    simp only [List.foldl_cons]
    apply ih
    · exact fun x hx => htodo x (by simp [hx])
    · intro x hx
      rcases (mem_insertFeature f x acc).mp hx with rfl | hx
      · exact htodo x (by simp)
      · exact hacc x hx
    · exact pairwise_insertFeature regs hclosed hirr f (htodo f (by simp)) acc hacc hp

/-- C1 amended: the ordered list produced by `setupDependencies` honors
`starts-after` for every pair of features in it, provided the declared
constraints are acyclic **and transitively closed** (the single-pass
insertion does not honor undeclared transitive constraints). -/
theorem setupDependencies_respects_startsAfter (regs : List Feature) (b : Bool)
    (l : List Feature) (hacyc : StartsAfterAcyclic regs) (hclosed : ClosedSA regs)
    (h : setupDependencies b regs = .ok l) :
    ∀ i j : Fin l.length,
      (l.get i).name ∈ (l.get j).startsAfter → (i : Nat) < (j : Nat) := by
  obtain ⟨rank, hrank⟩ := hacyc
  have hirr : ∀ a ∈ regs, a.name ∉ a.startsAfter := fun a ha hm =>
    lt_irrefl _ (hrank a ha a.name hm)
  have hl : l = (orderFeatures regs).filter (fun f => f.enabled) := by
    unfold setupDependencies at h
    cases hc : (if b then checkRequiresAll regs regs else none) with
    | some e => rw [hc] at h; cases h
    | none =>
      rw [hc] at h
      injection h with h
      exact h.symm
  obtain ⟨hpair, hmem⟩ := orderFeatures_pairwise regs hclosed hirr regs []
    (fun x hx => hx) (fun x hx => absurd hx (List.not_mem_nil x)) List.Pairwise.nil
  have hpair' : l.Pairwise (fun a b => b.name ∉ a.startsAfter) := by
    rw [hl]
    exact List.Pairwise.sublist (List.filter_sublist _) hpair
  have hmem' : ∀ x ∈ l, x ∈ regs := by
    rw [hl]
    intro x hx
    exact hmem x (List.mem_of_mem_filter hx)
  intro i j hij
  rcases lt_trichotomy (i : Nat) (j : Nat) with hlt | heq | hgt
  · exact hlt
  · exfalso
    have hget : l.get i = l.get j := by
      congr 1
      exact Fin.ext heq
    rw [hget] at hij
    exact hirr (l.get j) (hmem' _ (l.get_mem j.1 j.2)) hij
  · exfalso
    exact List.pairwise_iff_get.mp hpair' j i hgt hij

/-- C1 counterexample: `cxRegs` declares `X` after `Z` and `Z` after `Y`,
which is acyclic, yet the produced ordered list `[Z, X, Y]` places `Y`
after `Z`, violating the starts-after ordering (the chain was not declared
transitively closed). -/
theorem setupDependencies_startsAfter_violated :
    StartsAfterAcyclic cxRegs ∧
    setupDependencies true cxRegs = .ok cxOrdered ∧
    ¬ ∀ i j : Fin cxOrdered.length,
        (cxOrdered.get i).name ∈ (cxOrdered.get j).startsAfter →
        (i : Nat) < (j : Nat) := by
  refine ⟨⟨cxRank, by decide⟩, rfl, fun hall => ?_⟩
  have h20 := hall ⟨2, by decide⟩ ⟨0, by decide⟩ (by decide)
  exact absurd h20 (by decide)

/-- Witness for C1 amended on the transitively closed registry `cwRegs`. -/
theorem setupDependencies_respects_startsAfter_witness :
    ClosedSA cwRegs ∧ (0 : Nat) < 1 :=
  ⟨by decide,
   setupDependencies_respects_startsAfter cwRegs true cwRegs ⟨cwRank, by decide⟩
     (by decide) rfl ⟨0, by decide⟩ ⟨1, by decide⟩ (by decide)⟩

/-- Out of range, the enabled flag reads `false`. -/
theorem enabledAt_oob (fs : List Feature) (j : Nat) (h : fs.get? j = none) :
    enabledAt fs j = false := by
  unfold enabledAt
  rw [h]
  rfl

/-- Setting an index back to the value it already holds is the identity. -/
theorem set_get?_self {α : Type} : ∀ (l : List α) (i : Nat) (v : α),
    l.get? i = some v → l.set i v = l := by
  intro l
  induction l with
  | nil => intro i v h; cases h
  | cons a rest ih =>
    intro i v h
    cases i with
    | zero =>
      injection h with h
      rw [List.set_cons_zero, h]
    | succ n =>
      rw [List.set_cons_succ]
      rw [List.get?_cons_succ] at h
      rw [ih n v h]

/-- Skeleton equality gives equal lengths. -/
theorem skel_length {s t : List Feature} (h : s.map skel = t.map skel) :
    s.length = t.length := by
  have hc := congrArg List.length h
  simpa using hc

/-- Skeleton equality, read entry-wise. -/
theorem skel_get? {s t : List Feature} (h : s.map skel = t.map skel) (j : Nat) :
    (s.get? j).map skel = (t.get? j).map skel := by
  have hc := congrArg (fun l => l.get? j) h
  simpa [List.get?_map] using hc

/-- `lookupIdx` only reads names, hence is stable under skeleton equality. -/
theorem lookupIdx_skel : ∀ {s t : List Feature}, s.map skel = t.map skel →
    ∀ nm, lookupIdx s nm = lookupIdx t nm := by
  intro s
  induction s with
  | nil =>
    intro t h nm
    cases t with
    | nil => rfl
    | cons b bs => simp [skel] at h
  | cons a as ih =>
    intro t h nm
    cases t with
    | nil => simp [skel] at h
    | cons b bs =>
      simp only [List.map_cons, List.cons.injEq] at h
      obtain ⟨hab, hrest⟩ := h
      have hname : a.name = b.name := congrArg Prod.fst hab
      simp only [lookupIdx, hname, ih hrest nm]

/-- `lookupFeature` is `get?` at `lookupIdx`. -/
theorem lookupFeature_eq_bind : ∀ (fs : List Feature) (nm : String),
    lookupFeature fs nm = (lookupIdx fs nm).bind fs.get? := by
  intro fs
  induction fs with
  | nil => intro nm; rfl
  | cons f rest ih =>
    intro nm
    by_cases h : f.name = nm
    · rw [lookupFeature, List.find?_cons_of_pos _ (by simp [h])]
      simp [lookupIdx, h]
    · rw [lookupFeature, List.find?_cons_of_neg _ (by simp [h])]
      have hl : List.find? (fun g => g.name = nm) rest = lookupFeature rest nm := rfl
      rw [hl, ih nm]
      simp only [lookupIdx, h, if_false]
      cases hk : lookupIdx rest nm with
      | none => rfl
      | some k => simp [List.get?_cons_succ]

/-- A successful `lookupIdx` points at an entry carrying the looked-up
name. -/
theorem lookupIdx_get? : ∀ (fs : List Feature) (nm : String) (k : Nat),
    lookupIdx fs nm = some k → ∃ t, fs.get? k = some t ∧ t.name = nm := by
  intro fs
  induction fs with
  | nil => intro nm k h; cases h
  | cons f rest ih =>
    intro nm k h
    simp only [lookupIdx] at h
    by_cases hn : f.name = nm
    · rw [if_pos hn] at h
      injection h with h
      exact ⟨f, by rw [← h]; rfl, hn⟩
    · rw [if_neg hn] at h
      cases hl : lookupIdx rest nm with
      | none => rw [hl] at h; cases h
      | some k' =>
        rw [hl] at h
        injection h with h
        obtain ⟨t, ht, hnm⟩ := ih nm k' hl
        refine ⟨t, ?_, hnm⟩
        rw [← h, List.get?_cons_succ]
        exact ht

/-- Under skeleton equality, a lookup that resolves in the base registry
also resolves in the evolved state, at the same index. -/
theorem lookupFeature_skel (s fs₀ : List Feature) (h : s.map skel = fs₀.map skel)
    (nm : String) (k : Nat) (hk : lookupIdx fs₀ nm = some k) :
    ∃ t, lookupFeature s nm = some t ∧ s.get? k = some t := by
  have hidx : lookupIdx s nm = some k := by rw [lookupIdx_skel h nm, hk]
  obtain ⟨t₀, ht₀, -⟩ := lookupIdx_get? fs₀ nm k hk
  have hklt : k < fs₀.length := by
    by_contra hge
    rw [List.get?_eq_none.mpr (le_of_not_lt hge)] at ht₀
    cases ht₀
  have hklt' : k < s.length := by rw [skel_length h]; exact hklt
  cases hs : s.get? k with
  | none =>
    rw [List.get?_eq_none] at hs
    omega
  | some t =>
    refine ⟨t, ?_, rfl⟩
    rw [lookupFeature_eq_bind, hidx]
    simpa using hs

/-- With no enable-with target the chased value is the entry's own flag,
regardless of fuel. -/
theorem chaseVal_root (fs₀ : List Feature) (j : Nat) (h : tgtIdx fs₀ j = none) :
    ∀ m, chaseVal fs₀ m j = enabledAt fs₀ j := by
  intro m
  cases m with
  | zero => rfl
  | succ m => simp [chaseVal, h]

/-- Any fuel at least the rank yields the same chased value. -/
theorem chaseVal_stable (fs₀ : List Feature) (rnk : Nat → Nat)
    (hM : ∀ j k, tgtIdx fs₀ j = some k → rnk k < rnk j) :
    ∀ n j a b, rnk j ≤ n → rnk j ≤ a → rnk j ≤ b →
      chaseVal fs₀ a j = chaseVal fs₀ b j := by
  intro n
  induction n using Nat.strong_induction_on with
  | _ n ih =>
    intro j a b hn ha hb
    cases ht : tgtIdx fs₀ j with
    | none => rw [chaseVal_root _ _ ht, chaseVal_root _ _ ht]
    | some k =>
      have hk : rnk k < rnk j := hM j k ht
      cases a with
      | zero => omega
      | succ a' =>
        cases b with
        | zero => omega
        | succ b' =>
          have h1 : chaseVal fs₀ (a' + 1) j = chaseVal fs₀ a' k := by
            simp [chaseVal, ht]
          have h2 : chaseVal fs₀ (b' + 1) j = chaseVal fs₀ b' k := by
            simp [chaseVal, ht]
          rw [h1, h2]
          exact ih (rnk k) (by omega) k a' b' (le_refl _) (by omega) (by omega)

/-- At its own rank's fuel, an entry's chased value equals its target's. -/
theorem chaseVal_step (fs₀ : List Feature) (rnk : Nat → Nat)
    (hM : ∀ j k, tgtIdx fs₀ j = some k → rnk k < rnk j)
    (j k : Nat) (ht : tgtIdx fs₀ j = some k) :
    chaseVal fs₀ (rnk j) j = chaseVal fs₀ (rnk k) k := by
  have hk : rnk k < rnk j := hM j k ht
  cases hr : rnk j with
  | zero => omega
  | succ r =>
    have h1 : chaseVal fs₀ (r + 1) j = chaseVal fs₀ r k := by simp [chaseVal, ht]
    rw [h1]
    exact chaseVal_stable fs₀ rnk hM (rnk k) k r (rnk k) (le_refl _) (by omega) (le_refl _)

/-- Out-of-range entries trivially carry their chased value. -/
theorem enabledAt_oob_chase (fs₀ : List Feature) (rnk : Nat → Nat)
    (s : List Feature) (hlen : s.length = fs₀.length) (j : Nat)
    (hj : fs₀.length ≤ j) :
    enabledAt s j = chaseVal fs₀ (rnk j) j := by
  have hn : fs₀.get? j = none := List.get?_eq_none.mpr hj
  have hns : s.get? j = none := List.get?_eq_none.mpr (by omega)
  have ht : tgtIdx fs₀ j = none := by unfold tgtIdx; rw [hn]
  rw [chaseVal_root _ _ ht, enabledAt_oob _ _ hns, enabledAt_oob _ _ hn]

/-- In a skeleton-preserving state, an entry with a resolvable non-empty
enable-with reference has a definite target index in the base registry, and
the lookup in the evolved state succeeds at that index. -/
theorem sweep_target (fs₀ : List Feature)
    (hres : ∀ i f, fs₀.get? i = some f → f.enableWith ≠ "" →
      ∃ k, lookupIdx fs₀ f.enableWith = some k)
    (s : List Feature) (hs : s.map skel = fs₀.map skel)
    (i : Nat) (f : Feature) (hg : s.get? i = some f) (he : f.enableWith ≠ "") :
    ∃ k t, tgtIdx fs₀ i = some k ∧ lookupFeature s f.enableWith = some t ∧
      s.get? k = some t := by
  have hskel := skel_get? hs i
  rw [hg] at hskel
  cases hfg : fs₀.get? i with
  | none => rw [hfg] at hskel; simp at hskel
  | some f₀ =>
    rw [hfg] at hskel
    simp only [Option.map_some'] at hskel
    injection hskel with hskel
    have hew : f.enableWith = f₀.enableWith := congrArg Prod.snd hskel
    have he₀ : f₀.enableWith ≠ "" := by rw [← hew]; exact he
    obtain ⟨k, hk⟩ := hres i f₀ hfg he₀
    have hti : tgtIdx fs₀ i = some k := by
      simp [tgtIdx, ← List.get?_eq_getElem?, hfg, he₀, hk]
    obtain ⟨t, hl, hgt⟩ :=
      lookupFeature_skel s fs₀ hs f.enableWith k (by rw [hew]; exact hk)
    exact ⟨k, t, hti, hl, hgt⟩

/-- One sweep makes progress: if every entry of rank at most `kb` already
carries its chased value, then after visiting all remaining indices every
entry of rank at most `kb + 1` does; roots stay pinned to their original
flag, the skeleton is preserved, and the sweep never fails. -/
theorem sweepGo_progress (fs₀ : List Feature) (rnk : Nat → Nat)
    (hM : ∀ j k, tgtIdx fs₀ j = some k → rnk k < rnk j)
    (hres : ∀ i f, fs₀.get? i = some f → f.enableWith ≠ "" →
      ∃ k, lookupIdx fs₀ f.enableWith = some k) :
    ∀ (idxs : List Nat) (s : List Feature) (c : Bool) (kb : Nat),
      s.map skel = fs₀.map skel →
      (∀ j, tgtIdx fs₀ j = none → enabledAt s j = enabledAt fs₀ j) →
      (∀ j, rnk j ≤ kb → enabledAt s j = chaseVal fs₀ (rnk j) j) →
      (∀ j, j ∉ idxs → rnk j ≤ kb + 1 → enabledAt s j = chaseVal fs₀ (rnk j) j) →
      ∃ s' c', sweepGo idxs s c = .ok (s', c') ∧
        s'.map skel = fs₀.map skel ∧
        (∀ j, tgtIdx fs₀ j = none → enabledAt s' j = enabledAt fs₀ j) ∧
        (∀ j, rnk j ≤ kb + 1 → enabledAt s' j = chaseVal fs₀ (rnk j) j) := by
  intro idxs
  induction idxs with
  | nil =>
    intro s c kb hs hpin hlow hproc
    exact ⟨s, c, rfl, hs, hpin, fun j hj => hproc j (List.not_mem_nil j) hj⟩
  | cons i rest ih =>
    intro s c kb hs hpin hlow hproc
    cases hg : s.get? i with
    | none =>
      have hstep : sweepGo (i :: rest) s c = sweepGo rest s c := by
        simp only [sweepGo, hg]
      rw [hstep]
      apply ih s c kb hs hpin hlow
      intro j hj hjr
      by_cases hji : j = i
      · rw [hji]
        have hjlen : s.length ≤ i := List.get?_eq_none.mp hg
        exact enabledAt_oob_chase fs₀ rnk s (skel_length hs) i
          (by rw [← skel_length hs]; exact hjlen)
      · exact hproc j (fun hmem => Or.elim (List.mem_cons.mp hmem) hji hj) hjr
    | some f =>
      by_cases he : f.enableWith = ""
      · have hskel := skel_get? hs i
        rw [hg] at hskel
        cases hfg : fs₀.get? i with
        | none => rw [hfg] at hskel; simp at hskel
        | some f₀ =>
          rw [hfg] at hskel
          simp only [Option.map_some'] at hskel
          injection hskel with hskel
          have hew : f.enableWith = f₀.enableWith := congrArg Prod.snd hskel
          have he₀ : f₀.enableWith = "" := by rw [← hew]; exact he
          have hti : tgtIdx fs₀ i = none := by
            simp [tgtIdx, ← List.get?_eq_getElem?, hfg, he₀]
          have hstep : sweepGo (i :: rest) s c = sweepGo rest s c := by
            simp [sweepGo, ← List.get?_eq_getElem?, hg, he]
          rw [hstep]
          apply ih s c kb hs hpin hlow
          intro j hj hjr
          by_cases hji : j = i
          · rw [hji]
            rw [hpin i hti, chaseVal_root fs₀ i hti]
          · exact hproc j (fun hmem => Or.elim (List.mem_cons.mp hmem) hji hj) hjr
      · obtain ⟨k, t, hti, hls, hgk⟩ := sweep_target fs₀ hres s hs i f hg he
        have hrk : rnk k < rnk i := hM i k hti
        have htEn : t.enabled = enabledAt s k := by
          unfold enabledAt; rw [hgk]; rfl
        have hfEn : f.enabled = enabledAt s i := by
          unfold enabledAt; rw [hg]; rfl
        have hVstep := chaseVal_step fs₀ rnk hM i k hti
        by_cases hte : t.enabled = f.enabled
        · have hstep : sweepGo (i :: rest) s c = sweepGo rest s c := by
            simp [sweepGo, ← List.get?_eq_getElem?, hg, he, hls, hte]
          rw [hstep]
          apply ih s c kb hs hpin hlow
          intro j hj hjr
          by_cases hji : j = i
          · rw [hji] at hjr ⊢
            calc enabledAt s i = f.enabled := hfEn.symm
              _ = t.enabled := hte.symm
              _ = enabledAt s k := htEn
              _ = chaseVal fs₀ (rnk k) k := hlow k (by omega)
              _ = chaseVal fs₀ (rnk i) i := hVstep.symm
          · exact hproc j (fun hmem => Or.elim (List.mem_cons.mp hmem) hji hj) hjr
        · have hilen : i < s.length := by
            by_contra hge
            rw [List.get?_eq_none.mpr (le_of_not_lt hge)] at hg
            cases hg
          have hstep : sweepGo (i :: rest) s c =
              sweepGo rest (s.set i (f.setEnabled t.enabled)) true := by
            simp [sweepGo, ← List.get?_eq_getElem?, hg, he, hls, hte]
          rw [hstep]
          have hs2 : (s.set i (f.setEnabled t.enabled)).map skel = fs₀.map skel := by
            rw [List.map_set]
            have hskelEq : skel (f.setEnabled t.enabled) = skel f := rfl
            rw [hskelEq,
                set_get?_self (s.map skel) i (skel f)
                  (by rw [List.get?_map, hg]; rfl)]
            exact hs
          have hge2 : (s.set i (f.setEnabled t.enabled)).get? i =
              some (f.setEnabled t.enabled) := List.get?_set_eq_of_lt _ hilen
          have hen2i : enabledAt (s.set i (f.setEnabled t.enabled)) i = t.enabled := by
            unfold enabledAt; rw [hge2]; rfl
          have hen2ne : ∀ j, j ≠ i →
              enabledAt (s.set i (f.setEnabled t.enabled)) j = enabledAt s j := by
            intro j hj
            unfold enabledAt
            rw [List.get?_set_ne _ _ (fun hij => hj hij.symm)]
          apply ih (s.set i (f.setEnabled t.enabled)) true kb hs2
          · intro j hj
            by_cases hji : j = i
            · exfalso
              rw [hji] at hj
              rw [hj] at hti
              exact Option.noConfusion hti
            · rw [hen2ne j hji]; exact hpin j hj
          · intro j hjr
            by_cases hji : j = i
            · exfalso
              rw [hji] at hjr
              apply hte
              calc t.enabled = enabledAt s k := htEn
                _ = chaseVal fs₀ (rnk k) k := hlow k (by omega)
                _ = chaseVal fs₀ (rnk i) i := hVstep.symm
                _ = enabledAt s i := (hlow i hjr).symm
                _ = f.enabled := hfEn.symm
            · rw [hen2ne j hji]; exact hlow j hjr
          · intro j hj hjr
            by_cases hji : j = i
            · rw [hji] at hjr ⊢
              rw [hen2i]
              calc t.enabled = enabledAt s k := htEn
                _ = chaseVal fs₀ (rnk k) k := hlow k (by omega)
                _ = chaseVal fs₀ (rnk i) i := hVstep.symm
            · rw [hen2ne j hji]
              exact hproc j (fun hmem => Or.elim (List.mem_cons.mp hmem) hji hj) hjr

/-- A sweep over a state already at its chased values changes nothing and
keeps the `changed` flag as it was. -/
theorem sweepGo_fix (fs₀ : List Feature) (rnk : Nat → Nat)
    (hM : ∀ j k, tgtIdx fs₀ j = some k → rnk k < rnk j)
    (hres : ∀ i f, fs₀.get? i = some f → f.enableWith ≠ "" →
      ∃ k, lookupIdx fs₀ f.enableWith = some k) :
    ∀ (idxs : List Nat) (s : List Feature) (c : Bool),
      s.map skel = fs₀.map skel →
      (∀ j, enabledAt s j = chaseVal fs₀ (rnk j) j) →
      sweepGo idxs s c = .ok (s, c) := by
  intro idxs
  induction idxs with
  | nil => intro s c _ _; rfl
  | cons i rest ih =>
    intro s c hs hall
    cases hg : s.get? i with
    | none =>
      have hstep : sweepGo (i :: rest) s c = sweepGo rest s c := by
        simp only [sweepGo, hg]
      rw [hstep]; exact ih s c hs hall
    | some f =>
      by_cases he : f.enableWith = ""
      · have hstep : sweepGo (i :: rest) s c = sweepGo rest s c := by
          simp [sweepGo, ← List.get?_eq_getElem?, hg, he]
        rw [hstep]; exact ih s c hs hall
      · obtain ⟨k, t, hti, hls, hgk⟩ := sweep_target fs₀ hres s hs i f hg he
        have hte : t.enabled = f.enabled := by
          have h1 : t.enabled = enabledAt s k := by unfold enabledAt; rw [hgk]; rfl
          have h2 : f.enabled = enabledAt s i := by unfold enabledAt; rw [hg]; rfl
          rw [h1, h2, hall k, hall i, chaseVal_step fs₀ rnk hM i k hti]
        have hstep : sweepGo (i :: rest) s c = sweepGo rest s c := by
          simp [sweepGo, ← List.get?_eq_getElem?, hg, he, hls, hte]
        rw [hstep]; exact ih s c hs hall

/-- With acyclic, resolvable enable-with references, enough fuel reaches a
sweep with no change: `K - d` tracks how many ranks are already stable. -/
theorem eafLoop_term (fs₀ : List Feature) (rnk : Nat → Nat)
    (hM : ∀ j k, tgtIdx fs₀ j = some k → rnk k < rnk j)
    (hres : ∀ i f, fs₀.get? i = some f → f.enableWith ≠ "" →
      ∃ k, lookupIdx fs₀ f.enableWith = some k)
    (K : Nat) (hK : ∀ j, j < fs₀.length → rnk j ≤ K) :
    ∀ (d : Nat) (s : List Feature),
      s.map skel = fs₀.map skel →
      (∀ j, tgtIdx fs₀ j = none → enabledAt s j = enabledAt fs₀ j) →
      (∀ j, rnk j ≤ K - d → enabledAt s j = chaseVal fs₀ (rnk j) j) →
      ∃ out, enableAutomaticFeatures (d + 1) s = .ok out := by
  intro d
  induction d with
  | zero =>
    intro s hs hpin hlow
    have hall : ∀ j, enabledAt s j = chaseVal fs₀ (rnk j) j := by
      intro j
      by_cases hj : j < fs₀.length
      · exact hlow j (by simpa using hK j hj)
      · exact enabledAt_oob_chase fs₀ rnk s (skel_length hs) j (le_of_not_lt hj)
    have hfix := sweepGo_fix fs₀ rnk hM hres (List.range s.length) s false hs hall
    refine ⟨s, ?_⟩
    simp only [enableAutomaticFeatures, hfix]
  | succ d ihd =>
    intro s hs hpin hlow
    have hoob : ∀ j, j ∉ List.range s.length → rnk j ≤ (K - (d + 1)) + 1 →
        enabledAt s j = chaseVal fs₀ (rnk j) j := by
      intro j hj _
      have hge : s.length ≤ j := by
        by_contra hlt
        exact hj (List.mem_range.mpr (lt_of_not_le hlt))
      exact enabledAt_oob_chase fs₀ rnk s (skel_length hs) j
        (by rw [← skel_length hs]; exact hge)
    obtain ⟨s', c', hsw, hs', hpin', hP⟩ :=
      sweepGo_progress fs₀ rnk hM hres (List.range s.length) s false (K - (d + 1))
        hs hpin hlow hoob
    cases c' with
    | false =>
      refine ⟨s', ?_⟩
      simp only [enableAutomaticFeatures, hsw]
    | true =>
      have hlow' : ∀ j, rnk j ≤ K - d → enabledAt s' j = chaseVal fs₀ (rnk j) j := by
        intro j hjr
        exact hP j (by omega)
      obtain ⟨out, hout⟩ := ihd s' hs' hpin' hlow'
      refine ⟨out, ?_⟩
      have hred : enableAutomaticFeatures (d + 1 + 1) s =
          enableAutomaticFeatures (d + 1) s' := by
        simp only [enableAutomaticFeatures, hsw]
      rw [hred]
      exact hout

/-- C8 amended: on every finite registry whose enable-with references all
resolve and are acyclic, the fixed-point loop of `enableAutomaticFeatures`
terminates: some finite fuel reaches a sweep with no change.  (Without
acyclicity the loop can oscillate forever, and a changing sweep need not
strictly reduce the number of mismatched pairs even in the acyclic case.) -/
theorem enableAutomaticFeatures_terminates (fs : List Feature)
    (hres : EnableWithResolvable fs) (hacyc : EnableWithAcyclic fs) :
    ∃ fuel out, enableAutomaticFeatures fuel fs = .ok out := by
  obtain ⟨rank, hrank⟩ := hacyc
  have hM : ∀ j k, tgtIdx fs j = some k →
      rank (nameAt fs k) < rank (nameAt fs j) := by
    intro j k ht
    unfold tgtIdx at ht
    split at ht
    next hg => exact Option.noConfusion ht
    next f hg =>
      split at ht
      next he => exact Option.noConfusion ht
      next he =>
        obtain ⟨t, hgt, hnm⟩ := lookupIdx_get? fs f.enableWith k ht
        have h := hrank f (List.get?_mem hg) he t (List.get?_mem hgt) hnm
        have hnk : nameAt fs k = t.name := by unfold nameAt; rw [hgt]; rfl
        have hnj : nameAt fs j = f.name := by unfold nameAt; rw [hg]; rfl
        rw [hnk, hnj]
        exact h
  have hres' : ∀ i f, fs.get? i = some f → f.enableWith ≠ "" →
      ∃ k, lookupIdx fs f.enableWith = some k := by
    intro i f hg he
    obtain ⟨t, htmem, hnm⟩ := hres f (List.get?_mem hg) he
    have hsome : (lookupFeature fs f.enableWith).isSome := by
      unfold lookupFeature
      rw [List.find?_isSome]
      exact ⟨t, htmem, by simp [hnm]⟩
    rw [lookupFeature_eq_bind] at hsome
    cases hl : lookupIdx fs f.enableWith with
    | none => rw [hl] at hsome; simp at hsome
    | some k => exact ⟨k, rfl⟩
  have hK : ∀ j, j < fs.length →
      rank (nameAt fs j) ≤ (fs.map (fun f => rank f.name)).sum := by
    intro j hj
    cases hg : fs.get? j with
    | none =>
      rw [List.get?_eq_none] at hg
      omega
    | some f =>
      have hmem : rank f.name ∈ fs.map (fun f => rank f.name) :=
        List.mem_map.mpr ⟨f, List.get?_mem hg, rfl⟩
      have hnj : nameAt fs j = f.name := by unfold nameAt; rw [hg]; rfl
      rw [hnj]
      exact List.le_sum_of_mem hmem
  have h0 : ∀ j, rank (nameAt fs j) ≤
      (fs.map (fun f => rank f.name)).sum - (fs.map (fun f => rank f.name)).sum →
      enabledAt fs j = chaseVal fs (rank (nameAt fs j)) j := by
    intro j hjr
    cases ht : tgtIdx fs j with
    | none => rw [chaseVal_root _ _ ht]
    | some k =>
      have hlt := hM j k ht
      omega
  obtain ⟨out, hout⟩ := eafLoop_term fs (fun j => rank (nameAt fs j)) hM hres'
    ((fs.map (fun f => rank f.name)).sum) hK
    ((fs.map (fun f => rank f.name)).sum) fs rfl (fun j _ => rfl) h0
  exact ⟨(fs.map (fun f => rank f.name)).sum + 1, out, hout⟩

/-- Witness for C8 amended: the two-feature chain `[ceT, ceF]` resolves and
is acyclic, so the loop terminates on it. -/
theorem enableAutomaticFeatures_terminates_witness :
    ∃ fuel out, enableAutomaticFeatures fuel [ceT, ceF] = .ok out :=
  enableAutomaticFeatures_terminates [ceT, ceF]
    (by unfold EnableWithResolvable; decide)
    ⟨fun n => if n = "T" then 0 else 1, by decide⟩
